import Mathlib

/-!
Shallow embedding of the ortholog-family resolver of the phylogenetic
pipeline (scripts 03_identify_orthologs.py and 04_extract_sequences.py).
Strings are modelled by Lean `String` (a wrapper around `List Char`);
text files are modelled as their list of lines (without the trailing
newline character, which the Python code strips or emits explicitly).
Python errors (IndexError, ValueError) are modelled by `Except Unit`.
-/

/-- Python `str.isspace` characters relevant to ASCII input:
space, tab, newline, carriage return, vertical tab, form feed. -/
def pySpace (c : Char) : Bool :=
  c == ' ' || c == '\t' || c == '\n' || c == '\x0d' || c == '\x0b' || c == '\x0c'

/-- ASCII uppercase letter, the regex class [A-Z]. -/
def isUpperAscii (c : Char) : Bool := 'A' ≤ c && c ≤ 'Z'

/-- ASCII lowercase letter, the regex class [a-z]. -/
def isLowerAscii (c : Char) : Bool := 'a' ≤ c && c ≤ 'z'

/-- Python `s.split('_')` on the character list of `s`: splits at every
underscore; adjacent separators and string ends yield empty pieces, and
the empty string splits to one empty piece. -/
def splitU : List Char → List (List Char)
  | [] => [[]]
  | c :: rest =>
    match splitU rest with
    | [] => [[]]
    | h :: t => if c = '_' then [] :: h :: t else (c :: h) :: t

/-- extract_genome from 03_identify_orthologs.py: split the gene name on
underscore; with three or more parts return the first two rejoined with
an underscore, otherwise return the gene name unchanged. -/
def extract_genome (gene_name : String) : String :=
  match splitU gene_name.data with
  | p0 :: p1 :: _ :: _ => ⟨p0 ++ '_' :: p1⟩
  | _ => gene_name

/-- A cluster as built by parse_clusters: a representative gene id and
its accumulated member set, modelled as a duplicate-free list in
first-insertion order. -/
structure Cluster where
  representative : String
  members : List String
deriving DecidableEq

/-- Insert one (representative, member) row into the accumulated cluster
list: add the member to the first cluster with this representative (a
no-op when already present, Python set semantics), or append a fresh
cluster when the representative is new (Python dict insertion order). -/
def insertMember : List Cluster → String → String → List Cluster
  | [], rep, mem => [⟨rep, [mem]⟩]
  | c :: rest, rep, mem =>
    if c.representative = rep then
      (if mem ∈ c.members then c else ⟨c.representative, c.members ++ [mem]⟩) :: rest
    else c :: insertMember rest rep mem

/-- parse_clusters from 03_identify_orthologs.py: fold the
(representative, member) rows into a defaultdict(set) keyed by
representative. -/
def parse_clusters (rows : List (String × String)) : List Cluster :=
  rows.foldl (fun acc r => insertMember acc r.1 r.2) []

/-- The three acceptance conditions of identify_orthologs, evaluated on
one cluster: every genome occurs exactly once among the members
(Counter values all 1), at least min_genomes distinct genomes, and as
many members as distinct genomes. -/
def acceptCluster (min_genomes : Nat) (c : Cluster) : Bool :=
  let genomes := c.members.map extract_genome
  let uniq := genomes.dedup
  uniq.all (fun g => genomes.count g == 1)
    && decide (min_genomes ≤ uniq.length)
    && (genomes.length == uniq.length)

/-- An accepted ortholog family as built by identify_orthologs:
representative, member list, the distinct genome list, and its size. -/
structure OrthologFamily where
  representative : String
  members : List String
  genomes : List String
  num_genomes : Nat
deriving DecidableEq

/-- identify_orthologs from 03_identify_orthologs.py: keep exactly the
clusters passing all three criteria, emitting their family record. -/
def identify_orthologs (clusters : List Cluster) (min_genomes : Nat) :
    List OrthologFamily :=
  clusters.filterMap (fun c =>
    if acceptCluster min_genomes c then
      some ⟨c.representative, c.members,
            (c.members.map extract_genome).dedup,
            (c.members.map extract_genome).dedup.length⟩
    else none)

/-- The anchored regex match of `([A-Z][a-z]+_[a-z]+)_` from
extract_species_name in 04_extract_sequences.py, on a character list:
one uppercase letter, a nonempty lowercase run, an underscore, a
nonempty lowercase run, an underscore; returns the captured group.
Greedy matching of [a-z]+ is deterministic here because [a-z] excludes
the underscore, so the maximal lowercase run is the only viable one. -/
def speciesMatch (cs : List Char) : Option (List Char) :=
  match cs with
  | [] => none
  | c :: rest =>
    if isUpperAscii c then
      let l1 := rest.takeWhile isLowerAscii
      match rest.dropWhile isLowerAscii with
      | d :: rest2 =>
        if l1 = [] then none
        else if d = '_' then
          let l2 := rest2.takeWhile isLowerAscii
          match rest2.dropWhile isLowerAscii with
          | e :: _ =>
            if l2 = [] then none
            else if e = '_' then some (c :: l1 ++ '_' :: l2)
            else none
          | [] => none
        else none
      | [] => none
    else none

/-- extract_species_name from 04_extract_sequences.py: the regex capture
when the binomial prefix matches, the whole gene id otherwise. -/
def extract_species_name (gene_id : String) : String :=
  match speciesMatch gene_id.data with
  | some m => ⟨m⟩
  | none => gene_id

/-- Python `line.rstrip()` on a character list: drop trailing whitespace. -/
def rstripWS (cs : List Char) : List Char :=
  ((cs.reverse).dropWhile pySpace).reverse

/-- Python `s.strip()` on a character list: drop leading and trailing
whitespace. -/
def stripWS (cs : List Char) : List Char :=
  ((cs.dropWhile pySpace).reverse.dropWhile pySpace).reverse

/-- Accumulator pass of Python `s.split()` with no separator argument:
split on whitespace runs, discarding empty pieces. `cur` holds the
current token reversed. -/
def tokensGo : List Char → List Char → List (List Char)
  | cur, [] => if cur = [] then [] else [cur.reverse]
  | cur, c :: rest =>
    if pySpace c then
      if cur = [] then tokensGo [] rest else cur.reverse :: tokensGo [] rest
    else tokensGo (c :: cur) rest

/-- Python `s.split()` with no argument: the whitespace-delimited tokens. -/
def tokens (cs : List Char) : List (List Char) := tokensGo [] cs

/-- Python dict assignment `m[k] = v` on an association list: overwrite
the existing binding in place, or append a new one. -/
def upsert (m : List (String × String)) (k v : String) : List (String × String) :=
  if m.any (fun p => p.1 == k) then
    m.map (fun p => if p.1 == k then (k, v) else p)
  else m ++ [(k, v)]

/-- Python `s.add(x)` on a set modelled as a duplicate-free list in
insertion order. -/
def insertNew (s : List String) (x : String) : List String :=
  if x ∈ s then s else s ++ [x]

/-- Loop state of extract_sequences_from_fasta: the id-to-sequence dict,
the found set, the id of the record being read, and its accumulated
residue lines. -/
structure ExtState where
  seqs : List (String × String)
  found : List String
  cur : Option String
  curSeq : List String
deriving DecidableEq

/-- The save-previous-record step of extract_sequences_from_fasta: when
a record was open and its id is in the target set, store the joined
residue lines and mark the id found. -/
def saveCur (targetSet : List String) (st : ExtState) : ExtState :=
  match st.cur with
  | some cid =>
    if cid ∈ targetSet then
      ⟨upsert st.seqs cid (String.join st.curSeq), insertNew st.found cid,
       st.cur, st.curSeq⟩
    else st
  | none => st

/-- One line of the extract_sequences_from_fasta loop: rstrip the line;
a line starting with the marker closes the previous record and opens a
new one named by the first whitespace token after the marker (Python
raises IndexError when there is none, modelled as the error case);
every other line is accumulated as residues. -/
def procLineCore (targetSet : List String) (st : ExtState) :
    List Char → Except Unit ExtState
  | [] => .ok ⟨st.seqs, st.found, st.cur, st.curSeq ++ [⟨[]⟩]⟩
  | c :: restChars =>
    if c = '>' then
      match tokens restChars with
      | [] => .error ()
      | t :: _ => .ok ⟨(saveCur targetSet st).seqs, (saveCur targetSet st).found,
          some ⟨t⟩, []⟩
    else .ok ⟨st.seqs, st.found, st.cur, st.curSeq ++ [⟨c :: restChars⟩]⟩

/-- One line of the dispatch loop applied to the rstripped line. -/
def procLine (targetSet : List String) (st : ExtState) (line : String) :
    Except Unit ExtState :=
  procLineCore targetSet st (rstripWS line.data)

/-- The line loop of extract_sequences_from_fasta. -/
def extLoop (targetSet : List String) :
    ExtState → List String → Except Unit ExtState
  | st, [] => .ok st
  | st, l :: ls =>
    match procLine targetSet st l with
    | .ok st2 => extLoop targetSet st2 ls
    | .error e => .error e

/-- extract_sequences_from_fasta from 04_extract_sequences.py over the
list of input lines: returns the id-to-sequence dict, the found set and
the missing set (target set minus found, as reported to the caller). -/
def extract_sequences_from_fasta (lines : List String)
    (target_genes : List String) :
    Except Unit (List (String × String) × List String × List String) :=
  let targetSet := target_genes.dedup
  match extLoop targetSet ⟨[], [], none, []⟩ lines with
  | .error e => .error e
  | .ok st =>
    let st2 := saveCur targetSet st
    .ok (st2.seqs, st2.found,
         targetSet.filter (fun g => decide (g ∉ st2.found)))

/-- Decimal digit character of a value below ten (falls back to the
digit nine above, never reached by natDecimalAux). -/
def pyDigitChar (n : Nat) : Char :=
  if n = 0 then '0' else if n = 1 then '1' else if n = 2 then '2'
  else if n = 3 then '3' else if n = 4 then '4' else if n = 5 then '5'
  else if n = 6 then '6' else if n = 7 then '7' else if n = 8 then '8'
  else '9'

/-- Python `str(n)` for a natural number, fuelled so that the recursion
is structural: decimal digits, most significant first, prepended to
`acc`. Any fuel above the digit count gives the same result. -/
def natDecimalGo : Nat → Nat → List Char → List Char
  | 0, _, acc => acc
  | f + 1, n, acc =>
    let acc2 := pyDigitChar (n % 10) :: acc
    if n / 10 = 0 then acc2 else natDecimalGo f (n / 10) acc2

/-- Python `str(n)` for a natural number: its decimal digits. -/
def natDecimal (n : Nat) : List Char := natDecimalGo (n + 1) n []

/-- Decidable equality for the error monad used to model Python
exceptions. -/
instance {ε α : Type} [DecidableEq ε] [DecidableEq α] :
    DecidableEq (Except ε α) := fun a b =>
  match a, b with
  | .ok x, .ok y =>
    if h : x = y then .isTrue (congrArg Except.ok h)
    else .isFalse (fun he => h (by injection he))
  | .error x, .error y =>
    if h : x = y then .isTrue (congrArg Except.error h)
    else .isFalse (fun he => h (by injection he))
  | .ok _, .error _ => .isFalse (fun he => Except.noConfusion he)
  | .error _, .ok _ => .isFalse (fun he => Except.noConfusion he)

/-- Digit-run scanner of Python `int()`: consumes decimal digits with
single underscores allowed between digits, accumulating the value. -/
def goDigits : Nat → List Char → Option Nat
  | acc, [] => some acc
  | acc, c :: rest =>
    if c.isDigit then goDigits (acc * 10 + (c.toNat - 48)) rest
    else if c = '_' then
      match rest with
      | d :: rest2 =>
        if d.isDigit then goDigits (acc * 10 + (d.toNat - 48)) rest2 else none
      | [] => none
    else none

/-- Nonempty digit run starting with a digit (underscores only between
digits), as accepted by Python `int()` after sign handling. -/
def pyDigits : List Char → Option Nat
  | [] => none
  | c :: rest => if c.isDigit then goDigits (c.toNat - 48) rest else none

/-- Sign-and-digit-run stage of Python `int(s)` on the already
whitespace-stripped characters; `none` models the ValueError. -/
def pyIntCore : List Char → Option Int
  | [] => none
  | c :: rest =>
    if c = '-' then (pyDigits rest).map (fun n => -(n : Int))
    else if c = '+' then (pyDigits rest).map (fun n => (n : Int))
    else (pyDigits (c :: rest)).map (fun n => (n : Int))

/-- Python `int(s)`: strip surrounding whitespace, an optional sign,
then a digit run. -/
def pyInt (s : String) : Option Int := pyIntCore (stripWS s.data)

/-- Python `s.strip('(')` on a character list: drop leading and
trailing parenthesis-open characters. -/
def stripParens (cs : List Char) : List Char :=
  ((cs.dropWhile (fun c => c == '(')).reverse.dropWhile (fun c => c == '(')).reverse

/-- Python `s.startswith(p)` on character lists. -/
def beginsWith : List Char → List Char → Bool
  | _, [] => true
  | [], _ :: _ => false
  | c :: cs, p :: ps => c == p && beginsWith cs ps

/-- The header literal `Family:` tested by read_genes_file. -/
def familyTagWord : List Char := ['F', 'a', 'm', 'i', 'l', 'y', ':']

/-- The header line written by save_genes_for_alignment for one family:
the f-string `Family: {rep} ({num_genomes} species)`. -/
def headerOf (c : OrthologFamily) : String :=
  "Family: " ++ c.representative ++ " (" ++ ⟨natDecimal c.num_genomes⟩ ++ " species)"

/-- save_genes_for_alignment from 03_identify_orthologs.py, as the list
of lines written: per family a header line, one line per member gene,
and a blank separator line. -/
def save_genes_lines (ortho_clusters : List OrthologFamily) : List String :=
  ortho_clusters.flatMap (fun c => headerOf c :: c.members ++ [""])

/-- A family as re-read by read_genes_file: representative, declared
species count, and member gene ids. -/
structure FamilyDescriptor where
  representative : String
  num_species : Int
  members : List String
deriving DecidableEq

/-- Line loop of read_genes_file: strip each line; a line starting with
`Family:` appends a fresh family parsed from tokens one and two (the
error case models the IndexError on fewer than three tokens and the
ValueError of `int`); any other nonempty line joins the open family, or
is dropped when none is open; blank lines are skipped. `done` holds the
closed families, `cur` the family still accumulating members. -/
def readLoop : List FamilyDescriptor → Option FamilyDescriptor → List String →
    Except Unit (List FamilyDescriptor)
  | done, cur, [] => .ok (done ++ cur.toList)
  | done, cur, line :: rest =>
    let s := stripWS line.data
    if beginsWith s familyTagWord then
      match tokens s with
      | _ :: p1 :: p2 :: _ =>
        match pyInt ⟨stripParens p2⟩ with
        | some n => readLoop (done ++ cur.toList) (some ⟨⟨p1⟩, n, []⟩) rest
        | none => .error ()
      | _ => .error ()
    else if s = [] then readLoop done cur rest
    else
      match cur with
      | some fam =>
        readLoop done (some ⟨fam.representative, fam.num_species, fam.members ++ [⟨s⟩]⟩) rest
      | none => readLoop done none rest

/-- read_genes_file from 04_extract_sequences.py over the list of input
lines. -/
def read_genes_file (lines : List String) : Except Unit (List FamilyDescriptor) :=
  readLoop [] none lines

/-- Python `gene in sequences_dict` / `sequences_dict[gene]` on the
association-list model of the dict. -/
def lookupSeq (seqs : List (String × String)) (g : String) : Option String :=
  (seqs.find? (fun p => p.1 == g)).map (fun p => p.2)

/-- The sequence records written for one family by
create_family_fasta_files: one `(species display name, sequence)` record
per member present in the sequence dict, in member order; absent members
are skipped (and warned about). -/
def familyRecords (seqs : List (String × String)) (fam : FamilyDescriptor) :
    List (String × String) :=
  fam.members.filterMap (fun g =>
    (lookupSeq seqs g).map (fun s => (extract_species_name g, s)))

/-- One retained per-family output file: the 1-based positional index
and declared species count carried by the metadata line, and the
written records. -/
structure FamilyFile where
  idx : Nat
  numSpecies : Int
  records : List (String × String)
deriving DecidableEq

/-- The enumerate loop of create_family_fasta_files starting at
positional index `i`: a family with at least one written record
contributes a retained file; a family with none is removed and counted
in the skipped total. -/
def createAux (seqs : List (String × String)) :
    Nat → List FamilyDescriptor → List FamilyFile × Nat
  | _, [] => ([], 0)
  | i, fam :: rest =>
    let recs := familyRecords seqs fam
    let r := createAux seqs (i + 1) rest
    if recs.length > 0 then (⟨i, fam.num_species, recs⟩ :: r.1, r.2)
    else (r.1, r.2 + 1)

/-- create_family_fasta_files from 04_extract_sequences.py: returns the
retained files (enumerate is 1-based in the file names and headers) and
the count of families skipped for lack of any sequence. -/
def create_family_fasta_files (families : List FamilyDescriptor)
    (seqs : List (String × String)) : List FamilyFile × Nat :=
  createAux seqs 1 families

/-- First cluster with the given representative, the lookup order of
the Python dict keyed by representative. -/
def findCluster (cs : List Cluster) (rep : String) : Option Cluster :=
  cs.find? (fun c => c.representative == rep)

theorem splitU_ne_nil (cs : List Char) : splitU cs ≠ [] := by
  cases cs with
  | nil => simp [splitU]
  | cons c rest =>
    cases h : splitU rest with
    | nil => simp [splitU, h]
    | cons h0 t0 =>
      simp only [splitU, h]
      split <;> simp

/-- C3. genome_of (extract_genome) is pure and total, and on every gene
identifier it follows the token-count rule: three or more
underscore-separated tokens give the first two rejoined with an
underscore, exactly two or one token give the identifier unchanged. -/
theorem genome_of_spec (g : String) :
    (∀ p0 p1 rest, splitU g.data = p0 :: p1 :: rest →
        (rest ≠ [] → extract_genome g = ⟨p0 ++ '_' :: p1⟩) ∧
        (rest = [] → extract_genome g = g)) ∧
    (∀ p0, splitU g.data = [p0] → extract_genome g = g) := by
  constructor
  · intro p0 p1 rest h
    constructor
    · intro hne
      cases rest with
      | nil => exact absurd rfl hne
      | cons r rs => simp [extract_genome, h]
    · intro he
      subst he
      simp [extract_genome, h]
  · intro p0 h
    simp [extract_genome, h]

theorem genome_of_spec_witness :
    extract_genome "Salmonella_enterica_WP1" = ⟨"Salmonella".data ++ '_' :: "enterica".data⟩ ∧
    extract_genome "Escherichia_coli" = "Escherichia_coli" ∧
    extract_genome "R1" = "R1" :=
  ⟨((genome_of_spec "Salmonella_enterica_WP1").1 "Salmonella".data "enterica".data
      ["WP1".data] (by decide)).1 (by decide),
   ((genome_of_spec "Escherichia_coli").1 "Escherichia".data "coli".data [] (by decide)).2 rfl,
   (genome_of_spec "R1").2 "R1".data (by decide)⟩

/-- C1. identify_orthologs accepts a cluster iff every genome occurs
exactly once among its members, there are at least min_genomes distinct
genomes, and the member count equals the distinct-genome count; every
emitted family satisfies member count = genome count >= min_genomes,
and a rejected cluster contributes no output entry. -/
theorem orthology_classifier_acceptance (c : Cluster) (m : Nat) :
    (acceptCluster m c = true ↔
      ((∀ g ∈ (c.members.map extract_genome).dedup,
          (c.members.map extract_genome).count g = 1) ∧
        m ≤ (c.members.map extract_genome).dedup.length ∧
        c.members.length = (c.members.map extract_genome).dedup.length)) ∧
    (∀ fam ∈ identify_orthologs [c] m,
        fam.members.length = fam.genomes.length ∧ m ≤ fam.genomes.length) ∧
    (acceptCluster m c = false → identify_orthologs [c] m = []) ∧
    (acceptCluster m c = true → identify_orthologs [c] m ≠ []) := by
  have hlen : (c.members.map extract_genome).length = c.members.length :=
    List.length_map _ _
  have hiff : acceptCluster m c = true ↔
      ((∀ g ∈ (c.members.map extract_genome).dedup,
          (c.members.map extract_genome).count g = 1) ∧
        m ≤ (c.members.map extract_genome).dedup.length ∧
        c.members.length = (c.members.map extract_genome).dedup.length) := by
    unfold acceptCluster
    simp only [Bool.and_eq_true, List.all_eq_true, decide_eq_true_eq, beq_iff_eq, hlen]
    tauto
  refine ⟨hiff, ?_, ?_, ?_⟩
  · intro fam hfam
    by_cases hA : acceptCluster m c = true
    · simp only [identify_orthologs, List.filterMap_cons, List.filterMap_nil, hA,
        if_true, List.mem_singleton] at hfam
      subst hfam
      obtain ⟨_, h2, h3⟩ := hiff.mp hA
      exact ⟨h3, h2⟩
    · simp [identify_orthologs, hA] at hfam
  · intro hA
    simp [identify_orthologs, hA]
  · intro hA
    simp [identify_orthologs, hA]

theorem orthology_classifier_acceptance_witness :
    acceptCluster 3 ⟨"R2", ["Ecoli_A_1", "Salm_B_1", "Vibr_C_1"]⟩ = true ∧
    identify_orthologs [⟨"R2", ["Ecoli_A_1", "Salm_B_1", "Vibr_C_1"]⟩] 3 ≠ [] ∧
    identify_orthologs [⟨"R3", ["A_b_1", "A_b_2"]⟩] 1 = [] ∧
    (⟨"R2", ["Ecoli_A_1", "Salm_B_1", "Vibr_C_1"],
        ["Ecoli_A", "Salm_B", "Vibr_C"], 3⟩ : OrthologFamily).members.length
      = (⟨"R2", ["Ecoli_A_1", "Salm_B_1", "Vibr_C_1"],
          ["Ecoli_A", "Salm_B", "Vibr_C"], 3⟩ : OrthologFamily).genomes.length :=
  ⟨(orthology_classifier_acceptance ⟨"R2", ["Ecoli_A_1", "Salm_B_1", "Vibr_C_1"]⟩ 3).1.mpr
      ⟨by decide, by decide, by decide⟩,
   (orthology_classifier_acceptance ⟨"R2", ["Ecoli_A_1", "Salm_B_1", "Vibr_C_1"]⟩ 3).2.2.2
      (by decide),
   (orthology_classifier_acceptance ⟨"R3", ["A_b_1", "A_b_2"]⟩ 1).2.2.1 (by decide),
   ((orthology_classifier_acceptance ⟨"R2", ["Ecoli_A_1", "Salm_B_1", "Vibr_C_1"]⟩ 3).2.1
      _ (by decide)).1⟩

/-- C2 counterexample. In the spec scenario the two-token ids map to
themselves under extract_genome, so the genome "Salm" occurs zero times
(not twice) among the parsed cluster's genomes, and the cluster is
accepted (not rejected): identify_orthologs emits it. -/
theorem scenario_r1_cex :
    ((((parse_clusters [("R1", "R1"), ("R1", "Ecoli_WP1"), ("R1", "Salm_WP2"),
          ("R1", "Salm_WP3")]).headD ⟨"", []⟩).members.map extract_genome).count "Salm" = 0) ∧
    identify_orthologs
        (parse_clusters [("R1", "R1"), ("R1", "Ecoli_WP1"), ("R1", "Salm_WP2"),
          ("R1", "Salm_WP3")]) 2 ≠ [] := by
  decide

/-- C2 amended. The scenario rows parse to one cluster for R1 with four
members; every member is a one- or two-token id, so each genome is the
member id unchanged, giving four distinct genomes; with min_genomes = 2
the cluster is therefore accepted as a family of four genomes. -/
theorem scenario_r1_accepted :
    parse_clusters [("R1", "R1"), ("R1", "Ecoli_WP1"), ("R1", "Salm_WP2"),
        ("R1", "Salm_WP3")]
      = [⟨"R1", ["R1", "Ecoli_WP1", "Salm_WP2", "Salm_WP3"]⟩] ∧
    (["R1", "Ecoli_WP1", "Salm_WP2", "Salm_WP3"].map extract_genome
      = ["R1", "Ecoli_WP1", "Salm_WP2", "Salm_WP3"]) ∧
    identify_orthologs
        (parse_clusters [("R1", "R1"), ("R1", "Ecoli_WP1"), ("R1", "Salm_WP2"),
          ("R1", "Salm_WP3")]) 2
      = [⟨"R1", ["R1", "Ecoli_WP1", "Salm_WP2", "Salm_WP3"],
          ["R1", "Ecoli_WP1", "Salm_WP2", "Salm_WP3"], 4⟩] := by
  decide

theorem splitU_append_no_underscore (l : List Char) (rest : List Char)
    (h : ∀ c ∈ l, c ≠ '_') :
    splitU (l ++ '_' :: rest) = l :: splitU rest := by
  induction l with
  | nil =>
    cases hsr : splitU rest with
    | nil => exact absurd hsr (splitU_ne_nil rest)
    | cons h0 t0 => simp [splitU, hsr]
  | cons c l ih =>
    have hc : c ≠ '_' := h c (List.mem_cons_self _ _)
    have ihh : splitU (l ++ '_' :: rest) = l :: splitU rest :=
      ih (fun x hx => h x (List.mem_cons_of_mem _ hx))
    simp [splitU, ihh, hc]

theorem lower_ne_underscore (c : Char) (h : isLowerAscii c = true) : c ≠ '_' := by
  intro he
  subst he
  exact absurd h (by decide)

theorem speciesMatch_splitU {cs : List Char} {m : List Char}
    (h : speciesMatch cs = some m) :
    ∃ p0 p1 r, splitU cs = p0 :: p1 :: r ∧ r ≠ [] ∧ m = p0 ++ '_' :: p1 := by
  unfold speciesMatch at h
  cases cs with
  | nil => exact absurd h (by simp)
  | cons c rest =>
    simp only at h
    by_cases hu : isUpperAscii c = true
    · rw [if_pos hu] at h
      cases hr1 : rest.dropWhile isLowerAscii with
      | nil => rw [hr1] at h; exact absurd h (by simp)
      | cons d rest2 =>
        rw [hr1] at h
        dsimp only at h
        by_cases hl1 : rest.takeWhile isLowerAscii = []
        · rw [if_pos hl1] at h
          exact absurd h (by simp)
        · rw [if_neg hl1] at h
          by_cases hd : d = '_'
          · rw [if_pos hd] at h
            subst hd
            cases hr3 : rest2.dropWhile isLowerAscii with
            | nil => rw [hr3] at h; exact absurd h (by simp)
            | cons e rest4 =>
              rw [hr3] at h
              dsimp only at h
              by_cases hl2 : rest2.takeWhile isLowerAscii = []
              · rw [if_pos hl2] at h
                exact absurd h (by simp)
              · rw [if_neg hl2] at h
                by_cases he : e = '_'
                · rw [if_pos he] at h
                  subst he
                  simp only [Option.some.injEq] at h
                  refine ⟨c :: rest.takeWhile isLowerAscii,
                          rest2.takeWhile isLowerAscii, splitU rest4, ?_,
                          splitU_ne_nil rest4, by simp [h.symm]⟩
                  have hrest : rest = rest.takeWhile isLowerAscii ++
                      '_' :: rest2 := by
                    conv_lhs => rw [(List.takeWhile_append_dropWhile
                      (p := isLowerAscii) (l := rest)).symm]
                    rw [hr1]
                  have hrest2 : rest2 = rest2.takeWhile isLowerAscii ++
                      '_' :: rest4 := by
                    conv_lhs => rw [(List.takeWhile_append_dropWhile
                      (p := isLowerAscii) (l := rest2)).symm]
                    rw [hr3]
                  have hsp2 : splitU rest2
                      = rest2.takeWhile isLowerAscii :: splitU rest4 := by
                    conv_lhs => rw [hrest2]
                    exact splitU_append_no_underscore _ _
                      (fun x hx => lower_ne_underscore x (List.mem_takeWhile_imp hx))
                  have hsp1 : splitU rest
                      = rest.takeWhile isLowerAscii :: splitU rest2 := by
                    conv_lhs => rw [hrest]
                    exact splitU_append_no_underscore _ _
                      (fun x hx => lower_ne_underscore x (List.mem_takeWhile_imp hx))
                  have hcu : c ≠ '_' := by
                    intro he2
                    subst he2
                    exact absurd hu (by decide)
                  simp [splitU, hsp1, hsp2, hcu]
                · rw [if_neg he] at h
                  exact absurd h (by simp)
          · rw [if_neg hd] at h
            exact absurd h (by simp)
    · rw [if_neg hu] at h
      exact absurd h (by simp)

/-- C4 counterexample. extract_species_name and extract_genome are not
extensionally equal: on the three-token id a_b_c (lowercase first
letter, so the regex fails) the species name is the whole id while the
genome is the first two tokens. -/
theorem species_name_vs_genome_cex :
    extract_species_name "a_b_c" ≠ extract_genome "a_b_c" ∧
    extract_species_name "a_b_c" = "a_b_c" ∧
    extract_genome "a_b_c" = "a_b" := by
  decide

/-- C4 amended. extract_species_name agrees with extract_genome on
every gene id whose prefix matches the binomial regex (uppercase
letter, lowercase run, underscore, lowercase run, underscore), and on
every id with at most two underscore-separated tokens; the two
functions differ in general (see the counterexample). -/
theorem species_name_genome_agreement (g : String) :
    ((speciesMatch g.data).isSome = true →
        extract_species_name g = extract_genome g) ∧
    ((splitU g.data).length ≤ 2 →
        extract_species_name g = extract_genome g) := by
  constructor
  · intro hs
    obtain ⟨m, hm⟩ := Option.isSome_iff_exists.mp hs
    obtain ⟨p0, p1, r, hsp, hr, hmeq⟩ := speciesMatch_splitU hm
    cases r with
    | nil => exact absurd rfl hr
    | cons r0 rs =>
      simp [extract_species_name, extract_genome, hm, hsp, hmeq]
  · intro hle
    cases hopt : speciesMatch g.data with
    | some m =>
      exfalso
      obtain ⟨p0, p1, r, hsp, hr, _⟩ := speciesMatch_splitU hopt
      rw [hsp] at hle
      cases r with
      | nil => exact hr rfl
      | cons r0 rs => simp at hle
    | none =>
      have hs : extract_species_name g = g := by
        simp [extract_species_name, hopt]
      rw [hs]
      rcases hsp : splitU g.data with _ | ⟨a, _ | ⟨b, _ | ⟨c, t⟩⟩⟩
      · simp [extract_genome, hsp]
      · simp [extract_genome, hsp]
      · simp [extract_genome, hsp]
      · rw [hsp] at hle; simp at hle

theorem species_name_genome_agreement_witness :
    extract_species_name "Dickeya_chrysanthemi_WP_226052722.1"
        = extract_genome "Dickeya_chrysanthemi_WP_226052722.1" ∧
    extract_species_name "Salm_WP2" = extract_genome "Salm_WP2" :=
  ⟨(species_name_genome_agreement "Dickeya_chrysanthemi_WP_226052722.1").1 (by decide),
   (species_name_genome_agreement "Salm_WP2").2 (by decide)⟩

theorem insertMember_noop {cs : List Cluster} {rep mem : String}
    (h : ∃ c, findCluster cs rep = some c ∧ mem ∈ c.members) :
    insertMember cs rep mem = cs := by
  induction cs with
  | nil => simp [findCluster] at h
  | cons c rest ih =>
    obtain ⟨c0, hf, hm⟩ := h
    by_cases hc : c.representative = rep
    · have : c0 = c := by
        simp [findCluster, List.find?_cons, hc] at hf
        exact hf.symm
      subst this
      simp [insertMember, hc, hm]
    · have hb : (c.representative == rep) = false := by
        simp [hc]
      have hf2 : findCluster rest rep = some c0 := by
        simpa [findCluster, List.find?_cons, hb] using hf
      simp [insertMember, hc, ih ⟨c0, hf2, hm⟩]

theorem findCluster_insertMember (cs : List Cluster) (rep2 mem2 rep : String) :
    findCluster (insertMember cs rep2 mem2) rep = (if rep2 = rep then
        match findCluster cs rep with
        | some c => some (if mem2 ∈ c.members then c
            else ⟨c.representative, c.members ++ [mem2]⟩)
        | none => some ⟨rep2, [mem2]⟩
      else findCluster cs rep) := by
  induction cs with
  | nil =>
    by_cases hr : rep2 = rep <;> simp [insertMember, findCluster, hr]
  | cons c rest ih =>
    by_cases hc2 : c.representative = rep2
    · by_cases hr : rep2 = rep
      · have hcr : (c.representative == rep) = true := by simp [hc2, hr]
        by_cases hm2 : mem2 ∈ c.members <;>
          simp [insertMember, findCluster, hc2, hm2, List.find?_cons, hcr, hr]
      · have hcr : (c.representative == rep) = false := by
          simp only [hc2, beq_eq_false_iff_ne, ne_eq]
          exact hr
        by_cases hm2 : mem2 ∈ c.members <;>
          simp [insertMember, findCluster, hc2, hm2, List.find?_cons, hcr, hr]
    · by_cases hc : c.representative = rep
      · have hr : ¬rep2 = rep := fun h => hc2 (by rw [hc, ← h])
        have hcr : (c.representative == rep) = true := by simp [hc]
        simp [insertMember, findCluster, hc2, List.find?_cons, hcr, hr]
      · have hcr : (c.representative == rep) = false := by
          simp only [beq_eq_false_iff_ne, ne_eq]
          exact hc
        have hstep : insertMember (c :: rest) rep2 mem2
            = c :: insertMember rest rep2 mem2 := by
          simp [insertMember, hc2]
        have hfc : ∀ l : List Cluster, findCluster (c :: l) rep = findCluster l rep := by
          intro l
          simp [findCluster, List.find?_cons, hcr]
        rw [hstep, hfc, ih, hfc]

theorem findCluster_insert_self (cs : List Cluster) (rep mem : String) :
    ∃ c, findCluster (insertMember cs rep mem) rep = some c ∧ mem ∈ c.members := by
  rw [findCluster_insertMember]
  rw [if_pos rfl]
  cases hf : findCluster cs rep with
  | none => exact ⟨⟨rep, [mem]⟩, rfl, by simp⟩
  | some c =>
    by_cases hm : mem ∈ c.members
    · exact ⟨c, by simp [hm], hm⟩
    · exact ⟨⟨c.representative, c.members ++ [mem]⟩, by simp [hm], by simp⟩

theorem findCluster_insert_mono {cs : List Cluster} {rep mem : String}
    (h : ∃ c, findCluster cs rep = some c ∧ mem ∈ c.members)
    (rep2 mem2 : String) :
    ∃ c, findCluster (insertMember cs rep2 mem2) rep = some c ∧ mem ∈ c.members := by
  obtain ⟨c0, hf, hm⟩ := h
  rw [findCluster_insertMember]
  by_cases hr : rep2 = rep
  · rw [if_pos hr, hf]
    by_cases hm2 : mem2 ∈ c0.members
    · exact ⟨c0, by simp [hm2], hm⟩
    · exact ⟨⟨c0.representative, c0.members ++ [mem2]⟩, by simp [hm2],
        by simp [hm]⟩
  · rw [if_neg hr]
    exact ⟨c0, hf, hm⟩

theorem parse_foldl_preserves {rep mem : String} (rows : List (String × String)) :
    ∀ acc : List Cluster,
      (∃ c, findCluster acc rep = some c ∧ mem ∈ c.members) →
      ∃ c, findCluster
          (rows.foldl (fun acc r => insertMember acc r.1 r.2) acc) rep
        = some c ∧ mem ∈ c.members := by
  induction rows with
  | nil => intro acc h; exact h
  | cons r rs ih =>
    intro acc h
    exact ih _ (findCluster_insert_mono h r.1 r.2)

theorem parse_pairIn {rows : List (String × String)} {rep mem : String}
    (h : (rep, mem) ∈ rows) :
    ∀ acc : List Cluster,
      ∃ c, findCluster
          (rows.foldl (fun acc r => insertMember acc r.1 r.2) acc) rep
        = some c ∧ mem ∈ c.members := by
  induction rows with
  | nil => simp at h
  | cons r rs ih =>
    intro acc
    rcases List.mem_cons.mp h with heq | htl
    · subst heq
      exact parse_foldl_preserves rs _ (findCluster_insert_self acc rep mem)
    · exact ih htl _

/-- C7. parse_clusters is idempotent under duplicate rows: three copies
of a row produce the same cluster list as one copy, appending a row
already present never changes the result, and empty input yields an
empty result rather than an error. -/
theorem parse_clusters_idempotent (R M : String) (rows : List (String × String))
    (r : String × String) :
    parse_clusters [(R, M), (R, M), (R, M)] = parse_clusters [(R, M)] ∧
    (r ∈ rows → parse_clusters (rows ++ [r]) = parse_clusters rows) ∧
    parse_clusters ([] : List (String × String)) = [] := by
  refine ⟨?_, ?_, rfl⟩
  · simp [parse_clusters, insertMember]
  · intro hr
    unfold parse_clusters
    rw [List.foldl_append]
    simp only [List.foldl_cons, List.foldl_nil]
    exact insertMember_noop (parse_pairIn hr [])

theorem parse_clusters_idempotent_witness :
    parse_clusters ([("A", "B"), ("R", "M")] ++ [("R", "M")])
      = parse_clusters [("A", "B"), ("R", "M")] :=
  (parse_clusters_idempotent "R" "M" [("A", "B"), ("R", "M")] ("R", "M")).2.1
    (by decide)

theorem familyRecords_length (seqs : List (String × String)) (fam : FamilyDescriptor) :
    (familyRecords seqs fam).length
      = (fam.members.filter (fun g => (lookupSeq seqs g).isSome)).length := by
  unfold familyRecords
  induction fam.members with
  | nil => rfl
  | cons g gs ih =>
    cases h : lookupSeq seqs g with
    | none => simp [List.filterMap_cons, List.filter_cons, h, ih]
    | some s => simp [List.filterMap_cons, List.filter_cons, h, ih]

theorem createAux_spec (seqs : List (String × String)) (fams : List FamilyDescriptor) :
    ∀ i, createAux seqs i fams
      = (((fams.enumFrom i).filter
            (fun p => decide (0 < (familyRecords seqs p.2).length))).map
           (fun p => ⟨p.1, p.2.num_species, familyRecords seqs p.2⟩),
         (fams.filter
            (fun f => decide ((familyRecords seqs f).length = 0))).length) := by
  induction fams with
  | nil => intro i; simp [createAux]
  | cons f fs ih =>
    intro i
    by_cases h : familyRecords seqs f = []
    · have h1 : ¬0 < (familyRecords seqs f).length := by simp [h]
      simp [createAux, List.enumFrom, List.filter_cons, h, h1, ih (i + 1)]
    · have h1 : 0 < (familyRecords seqs f).length := by
        cases hh : familyRecords seqs f with
        | nil => exact absurd hh h
        | cons a l => simp [hh]
      simp [createAux, List.enumFrom, List.filter_cons, h, h1, ih (i + 1)]

/-- C8. The total number of records written by
create_family_fasta_files over all retained files equals the number of
(family, member) pairs whose member id is a key of the sequence map;
members absent from the map contribute nothing (they are skipped with a
warning). -/
theorem family_fasta_record_count (families : List FamilyDescriptor)
    (seqs : List (String × String)) :
    (((create_family_fasta_files families seqs).1.map
        (fun f => f.records.length)).sum)
      = ((families.map
            (fun fam => (fam.members.filter
              (fun g => (lookupSeq seqs g).isSome)).length)).sum) := by
  have haux : ∀ i fams, (((createAux seqs i fams).1.map
      (fun f => f.records.length)).sum)
        = ((fams.map (fun fam => (familyRecords seqs fam).length)).sum) := by
    intro i fams
    induction fams generalizing i with
    | nil => simp [createAux]
    | cons f fs ih =>
      by_cases h : 0 < (familyRecords seqs f).length
      · simp [createAux, h, ih (i + 1)]
      · have h0 : (familyRecords seqs f).length = 0 := by omega
        simp [createAux, h, ih (i + 1), h0]
  unfold create_family_fasta_files
  rw [haux 1 families]
  simp [familyRecords_length]

/-- C9. create_family_fasta_files retains exactly the families with at
least one written record, as positionally indexed files carrying their
records, and its skipped count is exactly the number of families all of
whose members lack a sequence (their file is not retained). -/
theorem family_fasta_retention (families : List FamilyDescriptor)
    (seqs : List (String × String)) :
    (create_family_fasta_files families seqs).2
        = (families.filter
            (fun f => decide ((familyRecords seqs f).length = 0))).length ∧
    (create_family_fasta_files families seqs).1
        = ((families.enumFrom 1).filter
            (fun p => decide (0 < (familyRecords seqs p.2).length))).map
           (fun p => ⟨p.1, p.2.num_species, familyRecords seqs p.2⟩) := by
  unfold create_family_fasta_files
  rw [createAux_spec]
  exact ⟨rfl, rfl⟩

theorem mem_insertNew (s : List String) (x y : String) :
    y ∈ insertNew s x ↔ (y ∈ s ∨ y = x) := by
  unfold insertNew
  by_cases h : x ∈ s
  · simp [h]
    intro he
    subst he
    exact h
  · simp [h]

theorem key_mem_upsert (m : List (String × String)) (k v x : String) :
    (∃ s, (x, s) ∈ upsert m k v) ↔ ((∃ s, (x, s) ∈ m) ∨ x = k) := by
  unfold upsert
  by_cases h : m.any (fun p => p.1 == k)
  · simp only [h, if_true]
    constructor
    · rintro ⟨s, hs⟩
      obtain ⟨p, hp, hpe⟩ := List.mem_map.mp hs
      by_cases hk : p.1 = k
      · right
        rw [if_pos (by simp [hk])] at hpe
        exact ((Prod.mk.injEq _ _ _ _).mp hpe.symm).1
      · left
        rw [if_neg (by simp [hk])] at hpe
        exact ⟨s, hpe ▸ hp⟩
    · rintro (⟨s, hs⟩ | he)
      · by_cases hk : x = k
        · subst hk
          obtain ⟨p, hp, hpk⟩ := List.any_eq_true.mp h
          refine ⟨v, List.mem_map.mpr ⟨p, hp, ?_⟩⟩
          rw [if_pos hpk]
        · refine ⟨s, List.mem_map.mpr ⟨(x, s), hs, ?_⟩⟩
          rw [if_neg (by simp [hk])]
      · subst he
        obtain ⟨p, hp, hpk⟩ := List.any_eq_true.mp h
        refine ⟨v, List.mem_map.mpr ⟨p, hp, ?_⟩⟩
        rw [if_pos hpk]
  · simp only [h, if_false]
    constructor
    · rintro ⟨s, hs⟩
      rcases List.mem_append.mp hs with hm | hone
      · exact Or.inl ⟨s, hm⟩
      · right
        simp at hone
        exact hone.1
    · rintro (⟨s, hs⟩ | he)
      · exact ⟨s, List.mem_append.mpr (Or.inl hs)⟩
      · subst he
        exact ⟨v, List.mem_append.mpr (Or.inr (by simp))⟩

theorem saveCur_inv (ts : List String) (st : ExtState)
    (h1 : ∀ x ∈ st.found, x ∈ ts)
    (h2 : ∀ x, (∃ s, (x, s) ∈ st.seqs) ↔ x ∈ st.found) :
    (∀ x ∈ (saveCur ts st).found, x ∈ ts) ∧
    (∀ x, (∃ s, (x, s) ∈ (saveCur ts st).seqs) ↔ x ∈ (saveCur ts st).found) := by
  unfold saveCur
  cases hc : st.cur with
  | none => exact ⟨h1, h2⟩
  | some cid =>
    by_cases hin : cid ∈ ts
    · simp only [hin, if_true]
      constructor
      · intro x hx
        rcases (mem_insertNew _ _ _).mp hx with hx2 | he
        · exact h1 x hx2
        · subst he
          exact hin
      · intro x
        rw [key_mem_upsert, mem_insertNew, h2]
    · simp only [hin, if_false]
      exact ⟨h1, h2⟩

theorem procLine_inv (ts : List String) (st st2 : ExtState) (line : String)
    (hp : procLine ts st line = .ok st2)
    (h1 : ∀ x ∈ st.found, x ∈ ts)
    (h2 : ∀ x, (∃ s, (x, s) ∈ st.seqs) ↔ x ∈ st.found) :
    (∀ x ∈ st2.found, x ∈ ts) ∧
    (∀ x, (∃ s, (x, s) ∈ st2.seqs) ↔ x ∈ st2.found) := by
  unfold procLine at hp
  cases hl : rstripWS line.data with
  | nil =>
    rw [hl] at hp
    simp only [procLineCore, Except.ok.injEq] at hp
    subst hp
    exact ⟨h1, h2⟩
  | cons c rest =>
    rw [hl] at hp
    simp only [procLineCore] at hp
    by_cases hm : c = '>'
    · rw [if_pos hm] at hp
      obtain ⟨hs1, hs2⟩ := saveCur_inv ts st h1 h2
      cases ht : tokens rest with
      | nil =>
        rw [ht] at hp
        exact absurd hp (by simp)
      | cons t ts2 =>
        rw [ht] at hp
        simp only [Except.ok.injEq] at hp
        subst hp
        exact ⟨hs1, hs2⟩
    · rw [if_neg hm] at hp
      simp only [Except.ok.injEq] at hp
      subst hp
      exact ⟨h1, h2⟩

theorem extLoop_inv (ts : List String) (lines : List String) :
    ∀ st st2 : ExtState,
      extLoop ts st lines = .ok st2 →
      ((∀ x ∈ st.found, x ∈ ts) ∧ (∀ x, (∃ s, (x, s) ∈ st.seqs) ↔ x ∈ st.found)) →
      (∀ x ∈ st2.found, x ∈ ts) ∧
      (∀ x, (∃ s, (x, s) ∈ st2.seqs) ↔ x ∈ st2.found) := by
  induction lines with
  | nil =>
    intro st st2 h hi
    unfold extLoop at h
    simp only [Except.ok.injEq] at h
    subst h
    exact hi
  | cons l ls ih =>
    intro st st2 h hi
    unfold extLoop at h
    cases hp : procLine ts st l with
    | error e =>
      rw [hp] at h
      exact absurd h (by simp)
    | ok stm =>
      rw [hp] at h
      exact ih stm st2 h (procLine_inv ts st stm l hp hi.1 hi.2)

/-- C5. For every input and target set, when
extract_sequences_from_fasta completes, the found ids and the reported
missing ids partition the target set exactly (union is the target set,
intersection empty), and the found ids are exactly the keys of the
returned id-to-sequence map. -/
theorem sequence_extractor_partition (lines target_genes : List String)
    (seqs : List (String × String)) (found missing : List String)
    (h : extract_sequences_from_fasta lines target_genes
      = .ok (seqs, found, missing)) :
    (∀ x, (x ∈ found ∨ x ∈ missing) ↔ x ∈ target_genes) ∧
    (∀ x, ¬(x ∈ found ∧ x ∈ missing)) ∧
    (∀ x, (∃ s, (x, s) ∈ seqs) ↔ x ∈ found) := by
  unfold extract_sequences_from_fasta at h
  dsimp only at h
  cases hL : extLoop target_genes.dedup ⟨[], [], none, []⟩ lines with
  | error e =>
    rw [hL] at h
    exact absurd h (by simp)
  | ok st =>
    rw [hL] at h
    dsimp only at h
    simp only [Except.ok.injEq, Prod.mk.injEq] at h
    obtain ⟨hseqs, hfound, hmissing⟩ := h
    have hinit : (∀ x ∈ (⟨[], [], none, []⟩ : ExtState).found,
          x ∈ target_genes.dedup) ∧
        (∀ x, (∃ s, (x, s) ∈ (⟨[], [], none, []⟩ : ExtState).seqs)
          ↔ x ∈ (⟨[], [], none, []⟩ : ExtState).found) := by
      refine ⟨fun x hx => by simp at hx, fun x => by simp⟩
    have hst := extLoop_inv target_genes.dedup lines _ st hL hinit
    have hfin := saveCur_inv target_genes.dedup st hst.1 hst.2
    subst hseqs
    subst hfound
    subst hmissing
    have hts : ∀ x : String, x ∈ target_genes.dedup ↔ x ∈ target_genes :=
      fun x => List.mem_dedup
    refine ⟨?_, ?_, hfin.2⟩
    · intro x
      constructor
      · rintro (hx | hx)
        · exact (hts x).mp (hfin.1 x hx)
        · exact (hts x).mp (List.mem_filter.mp hx).1
      · intro hx
        by_cases hxf : x ∈ (saveCur target_genes.dedup st).found
        · exact Or.inl hxf
        · exact Or.inr (List.mem_filter.mpr ⟨(hts x).mpr hx, by simp [hxf]⟩)
    · rintro x ⟨hxf, hxm⟩
      have := (List.mem_filter.mp hxm).2
      simp only [decide_eq_true_eq] at this
      exact this hxf

theorem sequence_extractor_partition_witness :
    (∀ x : String, (x ∈ ["A_b_1"] ∨ x ∈ ["Z"]) ↔ x ∈ ["A_b_1", "Z"]) ∧
    (∀ x : String, ¬(x ∈ ["A_b_1"] ∧ x ∈ ["Z"])) ∧
    (∀ x : String, (∃ s, (x, s) ∈ [("A_b_1", "MKVLLL")]) ↔ x ∈ ["A_b_1"]) :=
  sequence_extractor_partition [">A_b_1 desc", "MKV", "LLL", ">X", "QQQ"]
    ["A_b_1", "Z"] [("A_b_1", "MKVLLL")] ["A_b_1"] ["Z"] (by decide)

theorem extLoop_total (ts : List String) (lines : List String) :
    ∀ st : ExtState,
      (∀ l ∈ lines, ∀ rest, rstripWS l.data = '>' :: rest → tokens rest ≠ []) →
      ∃ st2, extLoop ts st lines = .ok st2 := by
  induction lines with
  | nil => exact fun st _ => ⟨st, rfl⟩
  | cons l ls ih =>
    intro st h
    have hproc : ∃ stm, procLine ts st l = .ok stm := by
      unfold procLine
      cases hl : rstripWS l.data with
      | nil => exact ⟨_, rfl⟩
      | cons c rest =>
        simp only [procLineCore]
        by_cases hc : c = '>'
        · subst hc
          cases ht : tokens rest with
          | nil =>
            exact absurd ht (h l (List.mem_cons_self _ _) rest hl)
          | cons t ts2 =>
            rw [if_pos rfl]
            exact ⟨_, rfl⟩
        · rw [if_neg hc]
          exact ⟨_, rfl⟩
    obtain ⟨stm, hm⟩ := hproc
    obtain ⟨st2, h2⟩ := ih stm (fun x hx => h x (List.mem_cons_of_mem _ hx))
    refine ⟨st2, ?_⟩
    unfold extLoop
    rw [hm]
    exact h2

/-- C10. extract_sequences_from_fasta is total under the precondition
that every marker line carries a nonempty token after the marker
character: it then returns a result; on an input whose marker line is
exactly the marker character the indexing of the first token of an
empty split is modelled as the error case, so the function errors and
the error branch is unreachable under the precondition. -/
theorem marker_line_totality (lines target : List String)
    (h : ∀ l ∈ lines, ∀ rest, rstripWS l.data = '>' :: rest → tokens rest ≠ []) :
    (∃ r, extract_sequences_from_fasta lines target = .ok r) ∧
    extract_sequences_from_fasta [">"] [] = .error () := by
  refine ⟨?_, by decide⟩
  obtain ⟨st2, h2⟩ := extLoop_total target.dedup lines ⟨[], [], none, []⟩ h
  refine ⟨((saveCur target.dedup st2).seqs, (saveCur target.dedup st2).found,
    target.dedup.filter (fun g => decide (g ∉ (saveCur target.dedup st2).found))), ?_⟩
  unfold extract_sequences_from_fasta
  dsimp only
  rw [h2]

theorem marker_line_totality_witness :
    (∃ r, extract_sequences_from_fasta [">A b", "MK"] [] = .ok r) ∧
    extract_sequences_from_fasta [">"] [] = .error () :=
  marker_line_totality [">A b", "MK"] [] (by
    intro l hl rest hr
    simp only [List.mem_cons, List.not_mem_nil, or_false] at hl
    rcases hl with rfl | rfl
    · have he : rstripWS (">A b" : String).data = ['>', 'A', ' ', 'b'] := by decide
      rw [he] at hr
      injection hr with h1 h2
      rw [← h2]
      decide
    · have he : rstripWS ("MK" : String).data = ['M', 'K'] := by decide
      rw [he] at hr
      injection hr with h1 h2
      exact absurd h1 (by decide))

theorem pyDigitChar_isDigit (n : Nat) : (pyDigitChar n).isDigit = true := by
  unfold pyDigitChar
  repeat' split
  all_goals decide

theorem pyDigitChar_val (m : Nat) (h : m < 10) : (pyDigitChar m).toNat - 48 = m := by
  interval_cases m <;> decide

theorem digit_not_pySpace (c : Char) (h : c.isDigit = true) : pySpace c = false := by
  cases hs : pySpace c
  · rfl
  · exfalso
    simp only [pySpace, Bool.or_eq_true, beq_iff_eq] at hs
    rcases hs with ((((rfl | rfl) | rfl) | rfl) | rfl) | rfl <;>
      exact absurd h (by decide)

theorem digit_ne_dash (c : Char) (h : c.isDigit = true) : c ≠ '-' := by
  intro he
  subst he
  exact absurd h (by decide)

theorem digit_ne_plus (c : Char) (h : c.isDigit = true) : c ≠ '+' := by
  intro he
  subst he
  exact absurd h (by decide)

theorem digit_ne_paren (c : Char) (h : c.isDigit = true) : (c == '(') = false := by
  cases hb : c == '('
  · rfl
  · exfalso
    have := eq_of_beq hb
    subst this
    exact absurd h (by decide)

theorem goDigits_all (ds : List Char) (hd : ∀ c ∈ ds, c.isDigit = true) :
    ∀ a, goDigits a ds
      = some (ds.foldl (fun acc c => acc * 10 + (c.toNat - 48)) a) := by
  induction ds with
  | nil => intro a; rfl
  | cons c rest ih =>
    intro a
    have hc : c.isDigit = true := hd c (List.mem_cons_self _ _)
    rw [List.foldl_cons]
    unfold goDigits
    rw [if_pos hc]
    exact ih (fun x hx => hd x (List.mem_cons_of_mem _ hx)) _

theorem natDecimalGo_append (f : Nat) : ∀ (n : Nat) (acc : List Char),
    natDecimalGo f n acc = natDecimalGo f n [] ++ acc := by
  induction f with
  | zero => intro n acc; rfl
  | succ f ih =>
    intro n acc
    simp only [natDecimalGo]
    by_cases h : n / 10 = 0
    · simp [h]
    · simp only [h, if_false]
      rw [ih (n / 10) (pyDigitChar (n % 10) :: acc),
          ih (n / 10) [pyDigitChar (n % 10)]]
      simp

theorem natDecimalGo_digits (f : Nat) : ∀ (n : Nat) (acc : List Char),
    (∀ c ∈ acc, c.isDigit = true) →
    ∀ c ∈ natDecimalGo f n acc, c.isDigit = true := by
  induction f with
  | zero => exact fun n acc h => h
  | succ f ih =>
    intro n acc hacc c hc
    simp only [natDecimalGo] at hc
    by_cases h : n / 10 = 0
    · rw [if_pos h] at hc
      rcases List.mem_cons.mp hc with rfl | hc2
      · exact pyDigitChar_isDigit _
      · exact hacc c hc2
    · rw [if_neg h] at hc
      refine ih (n / 10) _ ?_ c hc
      intro x hx
      rcases List.mem_cons.mp hx with rfl | hx2
      · exact pyDigitChar_isDigit _
      · exact hacc x hx2

theorem natDecimalGo_val (f : Nat) : ∀ n : Nat, n < f → ∀ a : Nat,
    (natDecimalGo f n []).foldl (fun acc c => acc * 10 + (c.toNat - 48)) a
      = a * 10 ^ (natDecimalGo f n []).length + n := by
  induction f with
  | zero => intro n h; omega
  | succ f ih =>
    intro n hn a
    simp only [natDecimalGo]
    by_cases h : n / 10 = 0
    · have hn10 : n < 10 := by omega
      have hmod : n % 10 = n := Nat.mod_eq_of_lt hn10
      simp only [h, if_true, List.foldl_cons, List.foldl_nil, List.length_cons,
        List.length_nil, pow_one, hmod]
      rw [pyDigitChar_val n hn10]
      ring
    · have h10 : 10 ≤ n := by
        by_contra hlt
        exact h (Nat.div_eq_of_lt (by omega))
      have hlt : n / 10 < f := by
        have := Nat.div_lt_self (by omega : 0 < n) (by omega : 1 < 10)
        omega
      simp only [h, if_false]
      rw [natDecimalGo_append f (n / 10) [pyDigitChar (n % 10)]]
      rw [List.foldl_append, List.length_append]
      rw [ih (n / 10) hlt a]
      simp only [List.foldl_cons, List.foldl_nil, List.length_cons, List.length_nil]
      rw [pyDigitChar_val (n % 10) (Nat.mod_lt _ (by omega))]
      have hdm : 10 * (n / 10) + n % 10 = n := Nat.div_add_mod n 10
      calc (a * 10 ^ (natDecimalGo f (n / 10) []).length + n / 10) * 10 + n % 10
          = a * (10 ^ (natDecimalGo f (n / 10) []).length * 10)
            + (10 * (n / 10) + n % 10) := by ring
        _ = a * 10 ^ ((natDecimalGo f (n / 10) []).length + (0 + 1)) + n := by
            rw [hdm]
            ring_nf

theorem natDecimal_ne_nil (n : Nat) : natDecimal n ≠ [] := by
  unfold natDecimal natDecimalGo
  by_cases h : n / 10 = 0
  · simp [h]
  · simp only [h, if_false]
    rw [natDecimalGo_append]
    simp

theorem natDecimal_digits (n : Nat) : ∀ c ∈ natDecimal n, c.isDigit = true :=
  natDecimalGo_digits (n + 1) n [] (by simp)

theorem pyDigits_natDecimal (n : Nat) : pyDigits (natDecimal n) = some n := by
  cases hd : natDecimal n with
  | nil => exact absurd hd (natDecimal_ne_nil n)
  | cons c rest =>
    have hdig : ∀ x ∈ natDecimal n, x.isDigit = true := natDecimal_digits n
    have hc : c.isDigit = true := hdig c (by rw [hd]; exact List.mem_cons_self _ _)
    have hrest : ∀ x ∈ rest, x.isDigit = true := by
      intro x hx
      exact hdig x (by rw [hd]; exact List.mem_cons_of_mem _ hx)
    simp only [pyDigits]
    rw [if_pos hc]
    rw [goDigits_all rest hrest (c.toNat - 48)]
    have hfold : rest.foldl (fun acc c => acc * 10 + (c.toNat - 48)) (c.toNat - 48)
        = (natDecimal n).foldl (fun acc c => acc * 10 + (c.toNat - 48)) 0 := by
      rw [hd, List.foldl_cons]
      have : 0 * 10 + (c.toNat - 48) = c.toNat - 48 := by omega
      rw [this]
    rw [hfold]
    unfold natDecimal
    rw [natDecimalGo_val (n + 1) n (by omega) 0]
    simp

theorem dropWhile_all_false {p : Char → Bool} :
    ∀ l : List Char, (∀ c ∈ l, p c = false) → l.dropWhile p = l := by
  intro l h
  induction l with
  | nil => rfl
  | cons c rest ih =>
    rw [List.dropWhile_cons]
    simp [h c (List.mem_cons_self _ _)]

theorem stripWS_all_nonspace (l : List Char) (h : ∀ c ∈ l, pySpace c = false) :
    stripWS l = l := by
  unfold stripWS
  rw [dropWhile_all_false l h]
  rw [dropWhile_all_false l.reverse (fun c hc => h c (List.mem_reverse.mp hc))]
  exact List.reverse_reverse l

theorem stripWS_sandwich (c d : Char) (mid : List Char)
    (hc : pySpace c = false) (hd : pySpace d = false) :
    stripWS (c :: mid ++ [d]) = c :: mid ++ [d] := by
  unfold stripWS
  rw [List.cons_append]
  rw [List.dropWhile_cons_of_neg (by simp [hc])]
  have hrev : ((c :: (mid ++ [d])) : List Char).reverse = d :: (mid.reverse ++ [c]) := by
    simp
  rw [hrev, List.dropWhile_cons_of_neg (by simp [hd])]
  rw [← hrev, List.reverse_reverse]

theorem stripParens_natDecimal (n : Nat) :
    stripParens ('(' :: natDecimal n) = natDecimal n := by
  unfold stripParens
  have hnp : ∀ c ∈ natDecimal n, (c == '(') = false :=
    fun c hc => digit_ne_paren c (natDecimal_digits n c hc)
  rw [List.dropWhile_cons]
  simp only [beq_self_eq_true, if_true]
  rw [dropWhile_all_false (p := fun c => c == '(') _ hnp]
  rw [dropWhile_all_false (p := fun c => c == '(') _
    (fun c hc => hnp c (List.mem_reverse.mp hc))]
  exact List.reverse_reverse _

theorem pyInt_natDecimal (n : Nat) : pyInt ⟨natDecimal n⟩ = some (n : Int) := by
  unfold pyInt
  have hdata : (⟨natDecimal n⟩ : String).data = natDecimal n := rfl
  rw [hdata]
  rw [stripWS_all_nonspace _ (fun c hc => digit_not_pySpace c (natDecimal_digits n c hc))]
  cases hd : natDecimal n with
  | nil => exact absurd hd (natDecimal_ne_nil n)
  | cons c rest =>
    have hc : c.isDigit = true :=
      natDecimal_digits n c (by rw [hd]; exact List.mem_cons_self _ _)
    simp only [pyIntCore]
    rw [if_neg (digit_ne_dash c hc), if_neg (digit_ne_plus c hc)]
    rw [← hd, pyDigits_natDecimal n]
    rfl

theorem strData_append (a b : String) : (a ++ b).data = a.data ++ b.data := by
  cases a
  cases b
  rfl

theorem beginsWith_append (p r : List Char) : beginsWith (p ++ r) p = true := by
  induction p with
  | nil => cases r <;> rfl
  | cons c cs ih => simp [beginsWith, ih]

theorem tokensGo_nonspace (a : List Char) (h : ∀ c ∈ a, pySpace c = false) :
    ∀ (cur rest : List Char),
      tokensGo cur (a ++ rest) = tokensGo (a.reverse ++ cur) rest := by
  induction a with
  | nil => intro cur rest; simp
  | cons c a ih =>
    intro cur rest
    have hc : pySpace c = false := h c (List.mem_cons_self _ _)
    have hstep : tokensGo cur ((c :: a) ++ rest) = tokensGo (c :: cur) (a ++ rest) := by
      conv_lhs => rw [List.cons_append]
      conv_lhs => rw [tokensGo]
      rw [if_neg (by simp [hc])]
    rw [hstep, ih (fun x hx => h x (List.mem_cons_of_mem _ hx)) (c :: cur) rest]
    simp

theorem tokensGo_space (cur rest : List Char) (h : cur ≠ []) :
    tokensGo cur (' ' :: rest) = cur.reverse :: tokensGo [] rest := by
  conv_lhs => rw [tokensGo]
  rw [if_pos (by decide), if_neg h]

theorem tokensGo_end (cur : List Char) (h : cur ≠ []) :
    tokensGo cur [] = [cur.reverse] := by
  conv_lhs => rw [tokensGo]
  rw [if_neg h]

theorem tokens_segment (a : List Char) (ha : a ≠ [])
    (hns : ∀ x ∈ a, pySpace x = false) (rest : List Char) :
    tokensGo [] (a ++ ' ' :: rest) = a :: tokensGo [] rest := by
  rw [tokensGo_nonspace a hns [] (' ' :: rest), List.append_nil]
  rw [tokensGo_space _ _ (by simpa using ha), List.reverse_reverse]

theorem tokens_last (a : List Char) (ha : a ≠ [])
    (hns : ∀ x ∈ a, pySpace x = false) :
    tokensGo [] a = [a] := by
  have h := tokensGo_nonspace a hns [] []
  rw [List.append_nil] at h
  rw [h, List.append_nil, tokensGo_end _ (by simpa using ha),
    List.reverse_reverse]

theorem headerOf_form (c : OrthologFamily) :
    (headerOf c).data
      = familyTagWord ++ ' ' :: (c.representative.data
          ++ ' ' :: (('(' :: natDecimal c.num_genomes)
            ++ ' ' :: "species)".data)) := by
  unfold headerOf
  simp only [strData_append]
  simp [familyTagWord, List.append_assoc]

theorem stripWS_header (c : OrthologFamily) :
    stripWS (headerOf c).data = (headerOf c).data := by
  have hd : (headerOf c).data
      = 'F' :: ("amily: ".data ++ c.representative.data ++ " (".data
          ++ natDecimal c.num_genomes ++ " species".data) ++ [')'] := by
    unfold headerOf
    simp only [strData_append]
    simp [List.append_assoc]
  rw [hd, stripWS_sandwich 'F' ')' _ (by decide) (by decide)]

theorem beginsWith_header (c : OrthologFamily) :
    beginsWith (headerOf c).data familyTagWord = true := by
  rw [headerOf_form c]
  exact beginsWith_append _ _

theorem tokens_header (c : OrthologFamily)
    (h1 : c.representative.data ≠ [])
    (h2 : ∀ ch ∈ c.representative.data, pySpace ch = false) :
    tokens (headerOf c).data
      = [familyTagWord, c.representative.data,
         '(' :: natDecimal c.num_genomes, "species)".data] := by
  unfold tokens
  rw [headerOf_form c]
  rw [tokens_segment familyTagWord (by decide) (by decide)]
  rw [tokens_segment c.representative.data h1 h2]
  rw [tokens_segment ('(' :: natDecimal c.num_genomes) (by simp) ?_]
  · rw [tokens_last "species)".data (by decide) (by decide)]
  · intro x hx
    rcases List.mem_cons.mp hx with rfl | hx2
    · decide
    · exact digit_not_pySpace x (natDecimal_digits _ x hx2)

theorem readLoop_header (c : OrthologFamily) (done : List FamilyDescriptor)
    (cur : Option FamilyDescriptor) (rest : List String)
    (h1 : c.representative.data ≠ [])
    (h2 : ∀ ch ∈ c.representative.data, pySpace ch = false) :
    readLoop done cur (headerOf c :: rest)
      = readLoop (done ++ cur.toList)
          (some ⟨c.representative, (c.num_genomes : Int), []⟩) rest := by
  conv_lhs => rw [readLoop.eq_def]
  dsimp only
  rw [stripWS_header c]
  rw [if_pos (beginsWith_header c)]
  rw [tokens_header c h1 h2]
  dsimp only
  rw [stripParens_natDecimal, pyInt_natDecimal]

theorem readLoop_members (ms : List String)
    (h : ∀ m ∈ ms, m.data ≠ [] ∧ (∀ ch ∈ m.data, pySpace ch = false) ∧
      beginsWith m.data familyTagWord = false) :
    ∀ (rest : List String) (done : List FamilyDescriptor) (fam : FamilyDescriptor),
      readLoop done (some fam) (ms ++ rest)
        = readLoop done
            (some ⟨fam.representative, fam.num_species, fam.members ++ ms⟩) rest := by
  induction ms with
  | nil =>
    intro rest done fam
    simp
  | cons m ms ih =>
    intro rest done fam
    have hm := h m (List.mem_cons_self _ _)
    have hstep : readLoop done (some fam) (m :: (ms ++ rest))
        = readLoop done
            (some ⟨fam.representative, fam.num_species, fam.members ++ [m]⟩)
            (ms ++ rest) := by
      conv_lhs => rw [readLoop.eq_def]
      dsimp only
      rw [stripWS_all_nonspace m.data hm.2.1]
      rw [if_neg (by simp [hm.2.2])]
      rw [if_neg hm.1]
    rw [List.cons_append, hstep,
      ih (fun x hx => h x (List.mem_cons_of_mem _ hx)) rest done _]
    simp

theorem readLoop_blank (done : List FamilyDescriptor)
    (cur : Option FamilyDescriptor) (rest : List String) :
    readLoop done cur ("" :: rest) = readLoop done cur rest := by
  conv_lhs => rw [readLoop.eq_def]
  dsimp only
  rw [show stripWS ("" : String).data = [] from rfl]
  rw [if_neg (by decide)]
  rw [if_pos rfl]

theorem readLoop_blocks (cl : List OrthologFamily) :
    ∀ (done : List FamilyDescriptor) (cur : Option FamilyDescriptor),
      (∀ c ∈ cl, c.representative.data ≠ [] ∧
        ∀ ch ∈ c.representative.data, pySpace ch = false) →
      (∀ c ∈ cl, ∀ m ∈ c.members, m.data ≠ [] ∧
        (∀ ch ∈ m.data, pySpace ch = false) ∧
        beginsWith m.data familyTagWord = false) →
      readLoop done cur (save_genes_lines cl)
        = .ok (done ++ cur.toList
            ++ cl.map (fun c => ⟨c.representative, (c.num_genomes : Int), c.members⟩)) := by
  induction cl with
  | nil =>
    intro done cur _ _
    simp [save_genes_lines, readLoop]
  | cons c cs ih =>
    intro done cur hrep hmem
    have hsave : save_genes_lines (c :: cs)
        = headerOf c :: (c.members ++ ("" :: save_genes_lines cs)) := by
      simp [save_genes_lines]
    rw [hsave]
    have hr := hrep c (List.mem_cons_self _ _)
    rw [readLoop_header c done cur _ hr.1 hr.2]
    rw [readLoop_members c.members (fun m hm => hmem c (List.mem_cons_self _ _) m hm)
      ("" :: save_genes_lines cs) (done ++ cur.toList) _]
    rw [readLoop_blank]
    rw [ih _ _ (fun x hx => hrep x (List.mem_cons_of_mem _ hx))
      (fun x hx => hmem x (List.mem_cons_of_mem _ hx))]
    simp

/-- C6 counterexample. The round trip of the genes-for-alignment
artifact fails for a whitespace-free but empty member id: the family
with member list [""] is written as a blank line, which re-parsing
skips, so the re-read member list is empty rather than [""]. -/
theorem genes_roundtrip_cex :
    read_genes_file (save_genes_lines
        [⟨"R1", [""], [], 1⟩])
      = .ok [⟨"R1", (1 : Int), []⟩] ∧
    read_genes_file (save_genes_lines
        [⟨"R1", [""], [], 1⟩])
      ≠ .ok [⟨"R1", (1 : Int), [""]⟩] := by
  constructor
  · decide
  · decide

/-- C6 amended. For every list of families whose representative and
member ids are nonempty and whitespace-free, and whose member ids do
not begin with the header tag `Family:`, writing the
genes-for-alignment artifact and re-parsing it yields one descriptor
per family, in order, with the same representative, the same declared
genome count, and the same member list. -/
theorem genes_roundtrip (cl : List OrthologFamily)
    (hrep : ∀ c ∈ cl, c.representative.data ≠ [] ∧
      ∀ ch ∈ c.representative.data, pySpace ch = false)
    (hmem : ∀ c ∈ cl, ∀ m ∈ c.members, m.data ≠ [] ∧
      (∀ ch ∈ m.data, pySpace ch = false) ∧
      beginsWith m.data familyTagWord = false) :
    read_genes_file (save_genes_lines cl)
      = .ok (cl.map (fun c => ⟨c.representative, (c.num_genomes : Int), c.members⟩)) := by
  unfold read_genes_file
  rw [readLoop_blocks cl [] none hrep hmem]
  rfl

theorem genes_roundtrip_witness :
    read_genes_file (save_genes_lines
        [⟨"R1", ["Aa_bb_1", "Cc_dd_2"], ["Aa_bb", "Cc_dd"], 2⟩,
         ⟨"Zz_q", ["Zz_q"], ["Zz_q"], 1⟩])
      = .ok [⟨"R1", (2 : Int), ["Aa_bb_1", "Cc_dd_2"]⟩,
             ⟨"Zz_q", (1 : Int), ["Zz_q"]⟩] :=
  genes_roundtrip
    [⟨"R1", ["Aa_bb_1", "Cc_dd_2"], ["Aa_bb", "Cc_dd"], 2⟩,
     ⟨"Zz_q", ["Zz_q"], ["Zz_q"], 1⟩]
    (by decide) (by decide)
